import Mathlib

/-
Verification development for the freqgen image compositor
(src/freqgen/image.py).  The text-layout and pill-packing algorithms are
shallowly embedded below: Python strings become `List Char`, PIL font
metric calls (`font.getbbox`, `font.getlength`) become abstract measure
functions passed as parameters, and Python integer arithmetic becomes
`ℤ`/`ℕ` arithmetic with the exact rounding the source performs.
-/

namespace Freqgen

/-- Python strings are modelled as lists of characters. -/
abbrev PyStr := List Char

/-- Python `int()` applied to a float: truncation toward zero.
Models `int(font.getlength(char) + tracking)` in `draw_text_with_tracking`. -/
def pyInt (q : ℚ) : ℤ := Int.tdiv q.num q.den

/-- Round-half-up rounding, `⌊q + 1/2⌋` computed on the reduced fraction.
This is the rounding policy the spec asserts for cursor advances; the
source does not use it (see `pyInt`). -/
def roundHalfUp (q : ℚ) : ℤ := Int.fdiv (q + 1 / 2).num (q + 1 / 2).den

/-- The three-character ellipsis `"..."` appended by both truncation loops. -/
def ellipsisText : PyStr := ['.', '.', '.']

/-- Python `" ".join(words)`. -/
def lineText (ws : List PyStr) : PyStr := List.intercalate [' '] ws

/-- One step of Python `str.split()`: accumulate non-whitespace runs,
`acc` holds the current word reversed. -/
def splitWordsAux : PyStr → PyStr → List PyStr
  | [], acc => if acc = [] then [] else [acc.reverse]
  | c :: rest, acc =>
    if c.isWhitespace then
      if acc = [] then splitWordsAux rest []
      else acc.reverse :: splitWordsAux rest []
    else splitWordsAux rest (c :: acc)

/-- Python `text.split()`: whitespace-delimited words, empties dropped. -/
def splitWords (t : PyStr) : List PyStr := splitWordsAux t []

/-- State of the greedy word-wrap loop in `draw_wrapped_text`
(lines 47-58 of image.py): finished lines (as their word lists) and the
current line's words. -/
abbrev WrapSt := List (List PyStr) × List PyStr

/-- One iteration of the greedy wrap loop of `draw_wrapped_text`:
`test_line = " ".join(current_line + [word])`; if its measured width fits,
append the word to the current line; otherwise close the current line
(when non-empty) and start a new one with the word, or emit the word as a
line of its own when the current line is empty.  `measure` models
`font.getbbox(s)[2] - font.getbbox(s)[0]`. -/
def wrapStep (measure : PyStr → ℤ) (maxWidth : ℤ) (st : WrapSt) (w : PyStr) : WrapSt :=
  if measure (lineText (st.2 ++ [w])) ≤ maxWidth then (st.1, st.2 ++ [w])
  else if st.2 = [] then (st.1 ++ [[w]], [])
  else (st.1 ++ [st.2], [w])

/-- The full greedy wrap loop of `draw_wrapped_text`, including the final
`if current_line: lines.append(...)` flush.  Lines are kept as their word
lists; the Python string for a line is `lineText` of it. -/
def wrapWords (measure : PyStr → ℤ) (maxWidth : ℤ) (words : List PyStr) :
    List (List PyStr) :=
  let st := words.foldl (wrapStep measure maxWidth) ([], [])
  if st.2 = [] then st.1 else st.1 ++ [st.2]

/-- Stopping condition of the ellipsis-shrinking loop in
`draw_wrapped_text` (line 71 of image.py): the candidate with `"..."`
appended fits `max_width`, or the prefix has at most 3 characters. -/
def shrinkCond (measure : PyStr → ℤ) (maxWidth : ℤ) (p : PyStr) : Prop :=
  measure (p ++ ellipsisText) ≤ maxWidth ∨ p.length ≤ 3

instance (measure : PyStr → ℤ) (maxWidth : ℤ) (p : PyStr) :
    Decidable (shrinkCond measure maxWidth p) :=
  inferInstanceAs (Decidable (_ ∨ _))

/-- Fuelled form of the `while True` shrinking loop of `draw_wrapped_text`
(lines 68-77): drop the final character until `shrinkCond` holds.  The
fuel is only a structural-recursion device; `L.length` fuel always
suffices because the condition holds at length 0. -/
def shrinkLastGo (measure : PyStr → ℤ) (maxWidth : ℤ) : ℕ → PyStr → PyStr
  | 0, L => L
  | fuel + 1, L =>
    if shrinkCond measure maxWidth L then L
    else shrinkLastGo measure maxWidth fuel L.dropLast

/-- The ellipsis-shrinking loop of `draw_wrapped_text`: the prefix of the
capped last line that is stored in the `(last_line, "...")` tuple. -/
def shrinkLast (measure : PyStr → ℤ) (maxWidth : ℤ) (L : PyStr) : PyStr :=
  shrinkLastGo measure maxWidth L.length L

/-- A line of wrapped output: Python stores plain lines as `str` and the
truncated line as a `(text, "...")` tuple; this tagged variant mirrors the
`isinstance(line, tuple)` distinction in the drawing loop. -/
inductive TextLine
  | plain (t : PyStr)
  | truncated (t : PyStr) (e : PyStr)
deriving DecidableEq, Repr

/-- The character content a line contributes when drawn: a truncated line
draws its text part and then the ellipsis immediately after it
(lines 81-98 of image.py). -/
def renderedText : TextLine → PyStr
  | TextLine.plain t => t
  | TextLine.truncated t e => t ++ e

/-- The `max_lines` capping step of `draw_wrapped_text` (lines 64-77):
when `max_lines` is truthy and exceeded, keep the first `max_lines` lines
and replace the last by its shrunk prefix tagged with `"..."`. -/
def capLines (measure : PyStr → ℤ) (maxWidth : ℤ) (maxLines : Option ℕ)
    (lines : List PyStr) : List TextLine :=
  match maxLines with
  | none => lines.map TextLine.plain
  | some m =>
    if m ≠ 0 ∧ m < lines.length then
      (lines.take (m - 1)).map TextLine.plain ++
        [TextLine.truncated
          (shrinkLast measure maxWidth ((lines.take m).getLastD [])) ellipsisText]
    else lines.map TextLine.plain

/-- The line computation of `draw_wrapped_text`: split the text into
words, wrap greedily, then apply the `max_lines` cap. -/
def draw_wrapped_text (measure : PyStr → ℤ) (maxWidth : ℤ)
    (maxLines : Option ℕ) (text : PyStr) : List TextLine :=
  capLines measure maxWidth maxLines
    ((wrapWords measure maxWidth (splitWords text)).map lineText)

/-- The draw-command trace of `draw_text_with_tracking` (lines 16-28 of
image.py): each character is drawn at the current cursor, and the cursor
advances by `int(font.getlength(char) + tracking)` — truncation toward
zero of the sum.  `adv` models `font.getlength` (a float in PIL, hence
`ℚ`).  The Python function returns `None`, so no end cursor is part of
the result. -/
def draw_text_with_tracking (adv : Char → ℚ) (x y : ℤ) (tracking : ℤ) :
    PyStr → List ((ℤ × ℤ) × Char)
  | [] => []
  | c :: rest =>
    ((x, y), c) :: draw_text_with_tracking adv (x + pyInt (adv c + tracking)) y tracking rest

/-- Modelled from the spec: the TrackedTextRenderer contract as the spec
states it — each character drawn at the cursor, cursor advanced by
`round(advance(char)) + tracking` with round-half-up rounding, and the
final cursor x position returned.  This is the claimed behaviour, to be
compared with `draw_text_with_tracking` above. -/
def draw_text_with_tracking_claimed (adv : Char → ℚ) (x y : ℤ) (tracking : ℤ) :
    PyStr → List ((ℤ × ℤ) × Char) × ℤ
  | [] => ([], x)
  | c :: rest =>
    let r := draw_text_with_tracking_claimed adv (x + roundHalfUp (adv c) + tracking) y tracking rest
    (((x, y), c) :: r.1, r.2)

/-- The width the tracked renderer consumes for a string: the sum of the
per-character cursor advances of `draw_text_with_tracking`. -/
def trackedWidth (adv : Char → ℚ) (tracking : ℤ) (s : PyStr) : ℤ :=
  (s.map (fun c => pyInt (adv c + tracking))).sum

/-- A PIL bounding box `(x0, y0, x1, y1)` as returned by `font.getbbox`
and by `draw_pill`. -/
structure BBox where
  x0 : ℤ
  y0 : ℤ
  x1 : ℤ
  y1 : ℤ
deriving DecidableEq, Repr

/-- A font is modelled by its `getbbox` metric. -/
abbrev FontM := PyStr → BBox

/-- The pill geometry computed by `draw_pill` (lines 105-159 of image.py):
position resolution follows the source's `if`/`elif` chain, including
Python truthiness — an empty `relative_to_text` string is falsy, so the
`elif relative_to and relative_to_text and relative_to_font` branch is
skipped for it.  The pixel `offset` is added after resolution, and the
returned box is `(pill_x, pill_y, pill_x + pill_width, pill_y + pill_height)`.
Python `//` is floor division, hence `Int.fdiv`. -/
def draw_pill (font : FontM) (text : PyStr)
    (position relativeTo : Option (ℤ × ℤ)) (relativeToText : Option PyStr)
    (relativeToFont : Option FontM) (gap : ℤ) (offset : ℤ × ℤ)
    (paddingX pillHeight : ℤ) : BBox :=
  let tb := font text
  let textWidth := tb.x1 - tb.x0
  let pillWidth := textWidth + 2 * paddingX
  let base : ℤ × ℤ :=
    match position, relativeTo, relativeToText, relativeToFont with
    | some p, _, _, _ => p
    | none, some r, some t, some f =>
      if t = [] then r
      else
        let rb := f t
        (r.1 + (rb.x1 - rb.x0) + gap,
         r.2 + Int.fdiv ((rb.y1 - rb.y0) - pillHeight) 2)
    | none, some r, _, _ => r
    | none, none, _, _ => (0, 0)
  let px := base.1 + offset.1
  let py := base.2 + offset.2
  ⟨px, py, px + pillWidth, py + pillHeight⟩

/-- The three label categories mixed into the pill grid. -/
inductive PillCat
  | verbatim
  | tag
  | artist
deriving DecidableEq, Repr

/-- An RGBA color tuple. -/
abbrev Color := ℕ × ℕ × ℕ × ℕ

def GREY : Color := (198, 183, 184, 255)

def WHITE : Color := (255, 255, 255, 255)

/-- One `(pill_type, pill_text, pill_bg)` triple of `generate_image`. -/
structure PillItem where
  cat : PillCat
  text : PyStr
  color : Color
deriving DecidableEq, Repr

/-- Pill width in the packing loop (line 317 of image.py):
`text_width + 50`, i.e. the measured text width plus 25 px padding on each
side.  `measure` models `tags_font.getbbox(s)[2] - tags_font.getbbox(s)[0]`,
which is a nonnegative pixel extent, hence `ℕ`. -/
def pillWidth (measure : PyStr → ℕ) (it : PillItem) : ℕ := measure it.text + 50

/-- The cumulative width the packing loop accounts to a line: the sum of
its pill widths plus one `gapX` between consecutive pills. -/
def lineWidthSum (measure : PyStr → ℕ) (gapX : ℕ) (l : List PillItem) : ℕ :=
  (l.map (pillWidth measure)).sum + (l.length - 1) * gapX

/-- The pill distribution loop of `generate_image` (lines 312-343 of
image.py), written as structural recursion over the remaining items.  The
state is `(lines, current_line, current_line_width)`; reaching `max_lines`
finalized lines stops processing (the `break`), returning with an empty
current line exactly as the Python loop leaves it. -/
def packLoop (measure : PyStr → ℕ) (maxLines bound gapX : ℕ) :
    List PillItem → List (List PillItem) → List PillItem → ℕ →
    List (List PillItem) × List PillItem
  | [], lines, current, _ => (lines, current)
  | it :: rest, lines, current, curW =>
    let w := pillWidth measure it
    let needed := if current = [] then w else w + gapX
    if curW + needed ≤ bound ∧ lines.length < maxLines then
      packLoop measure maxLines bound gapX rest lines (current ++ [it]) (curW + needed)
    else
      let lines2 := if current = [] then lines else lines ++ [current]
      if lines2.length < maxLines then
        packLoop measure maxLines bound gapX rest lines2 [it] w
      else
        (lines2, [])

/-- The complete pill packing of `generate_image`, including the final
`if current_line and len(lines) < max_lines: lines.append(current_line)`
flush (line 346).  `bound` is `max_pill_right - pill_start_x`. -/
def packPills (measure : PyStr → ℕ) (maxLines bound gapX : ℕ)
    (items : List PillItem) : List (List PillItem) :=
  let st := packLoop measure maxLines bound gapX items [] [] 0
  if st.2 ≠ [] ∧ st.1.length < maxLines then st.1 ++ [st.2] else st.1

/-- The step of the pill-text display truncation loop in the rendering
pass (line 365 of image.py): `display_text = display_text[:-4] + "..."`. -/
def truncStep (s : PyStr) : PyStr := s.take (s.length - 4) ++ ellipsisText

/-- Exit condition of the display truncation loop: the text fits the
remaining width, or it has at most 6 characters. -/
def truncStop (measure : PyStr → ℕ) (maxTextWidth : ℤ) (s : PyStr) : Prop :=
  (measure s : ℤ) ≤ maxTextWidth ∨ s.length ≤ 6

instance (measure : PyStr → ℕ) (maxTextWidth : ℤ) (s : PyStr) :
    Decidable (truncStop measure maxTextWidth s) :=
  inferInstanceAs (Decidable (_ ∨ _))

/-- Fuelled form of the display truncation `while` loop of the rendering
pass (lines 359-365 of image.py).  Each iteration shortens the text by one
character net, so `s.length` fuel always suffices. -/
def truncDisplayGo (measure : PyStr → ℕ) (maxTextWidth : ℤ) :
    ℕ → PyStr → PyStr
  | 0, s => s
  | fuel + 1, s =>
    if maxTextWidth < (measure s : ℤ) ∧ 6 < s.length then
      truncDisplayGo measure maxTextWidth fuel (truncStep s)
    else s

/-- The display-text truncation of the pill rendering pass:
`max_text_width` is `max_pill_right - x - 50` at the current cursor `x`. -/
def truncDisplayText (measure : PyStr → ℕ) (maxTextWidth : ℤ) (s : PyStr) : PyStr :=
  truncDisplayGo measure maxTextWidth s.length s

/-- Modelled from the spec: a step of the pseudo-random generator behind
Python's `random` module (standard library, outside src/).  The concrete
values are irrelevant to every property proved below; only that the
generator is a deterministic function of its state matters. -/
def lcgNext (g : ℕ) : ℕ × ℕ :=
  let g2 := (g * 6364136223846793005 + 1442695040888963407) % 2 ^ 64
  (g2 / 2 ^ 16, g2)

/-- Modelled from the spec: Fisher-Yates shuffling as performed by
`random.shuffle` — repeatedly draw a position below the remaining length
and emit that element.  Fuelled structural recursion; `l.length` fuel
always suffices. -/
def shuffleGo {α : Type} : ℕ → ℕ → List α → List α
  | _, _, [] => []
  | _, 0, l => l
  | g, fuel + 1, x :: xs =>
    let l := x :: xs
    let j := (lcgNext g).1 % l.length
    l.getD j x :: shuffleGo (lcgNext g).2 fuel (l.eraseIdx j)

/-- Modelled from the spec: the deterministic seeded shuffle —
`random.seed(seed)` fixes the generator state, then the list is shuffled. -/
def seededShuffle {α : Type} (seed : ℕ) (l : List α) : List α :=
  shuffleGo seed l.length l

/-- The concatenated pill sequence built by `generate_image`
(lines 280-292): verbatims (grey), then tags (white), then artists
(scene color), in input order. -/
def buildAllPills (verbatims tags artists : List PyStr) (pillBgColor : Color) :
    List PillItem :=
  verbatims.map (fun t => ⟨PillCat.verbatim, t, GREY⟩) ++
    tags.map (fun t => ⟨PillCat.tag, t, WHITE⟩) ++
    artists.map (fun t => ⟨PillCat.artist, t, pillBgColor⟩)

/-- The fixed shuffle seed of `generate_image` (line 295: `random.seed(420)`). -/
def shuffleSeed : ℕ := 420

/-- The shuffled pill sequence of `generate_image` (lines 280-296).
`ambientRng` models whatever state the process-wide `random` generator
holds when `generate_image` is entered; `random.seed(420)` overwrites it,
so it is deliberately unused. -/
def mixAllPills (ambientRng : ℕ) (verbatims tags artists : List PyStr)
    (pillBgColor : Color) : List PillItem :=
  seededShuffle shuffleSeed (buildAllPills verbatims tags artists pillBgColor)

/-- Scene configuration bound by the `match station` at the top of
`generate_image` (lines 202-212 of image.py). -/
structure SceneConfig where
  sceneName : String
  sceneGenre : String
  bgImageName : String
  pillBgColor : Color
deriving DecidableEq, Repr

def atriumScene : SceneConfig :=
  { sceneName := "L'Atrium", sceneGenre := "House solaire",
    bgImageName := "house.png", pillBgColor := (255, 134, 53, 255) }

def refugeScene : SceneConfig :=
  { sceneName := "Le Refuge", sceneGenre := "Techno sombre",
    bgImageName := "techno.png", pillBgColor := (182, 140, 254, 255) }

def stationSlowerVal : String := "slower"

def stationSlowVal : String := "slow"

def stationFastVal : String := "fast"

def stationFasterVal : String := "faster"

/-- The `match station` of `generate_image`: the four `Station` members
select one of two scenes; any other value matches no case, and the scene
variables stay unbound.  Stations are modelled by their underlying
`StrEnum` string values so that out-of-enum values are representable. -/
def stationScene (station : String) : Option SceneConfig :=
  if station = stationSlowerVal ∨ station = stationSlowVal then some atriumScene
  else if station = stationFasterVal ∨ station = stationFastVal then some refugeScene
  else none

/-- Errors the modelled `generate_image` can raise.  `unboundLocal`
models Python's `UnboundLocalError`, raised when `bg_image_path` is read
after the `match station` fell through with no case taken.
`invalidCategory` — Modelled from the spec: the `InvalidCategoryError`
the spec's error-handling section names; the source defines no such
exception class anywhere. -/
inductive PyErr
  | unboundLocal
  | invalidCategory
deriving DecidableEq, Repr

/-- The layout-relevant output of one `generate_image` call: the scene
selection, the wrapped title lines, and the packed pill lines. -/
structure LayoutPlan where
  scene : SceneConfig
  titleLines : List TextLine
  pillLines : List (List PillItem)
deriving DecidableEq, Repr

/-- The layout computation of `generate_image` (lines 179-347 of
image.py): scene selection by `match station` (falling through to an
`UnboundLocalError` for out-of-enum values, before any raster exists),
title wrapping with `max_width = width - 200` and `max_lines = 3`, and
pill packing with `max_lines = 4`, gap 24 and
`bound = max_pill_right - pill_start_x = (width - 66) - 66`.
`titleMeasure` and `pillMeasure` model the `getbbox` widths of
`radio_station_font` and `tags_font`. -/
def generate_image (titleMeasure : PyStr → ℤ) (pillMeasure : PyStr → ℕ)
    (width : ℤ) (ambientRng : ℕ) (station : String) (stationName : PyStr)
    (verbatims tags artists : List PyStr) : Except PyErr LayoutPlan :=
  match stationScene station with
  | none => Except.error PyErr.unboundLocal
  | some cfg =>
    Except.ok
      { scene := cfg
        titleLines := draw_wrapped_text titleMeasure (width - 200) (some 3) stationName
        pillLines :=
          packPills pillMeasure 4 ((width - 66) - 66).toNat 24
            (mixAllPills ambientRng verbatims tags artists cfg.pillBgColor) }

/-- A station value outside the four `Station` enum members, used to
exercise the fall-through behaviour of the `match station`. -/
def stationBadVal : String := "slowest"

instance {ε α : Type} [DecidableEq ε] [DecidableEq α] : DecidableEq (Except ε α) :=
  fun a b =>
    match a, b with
    | Except.error x, Except.error y =>
      if h : x = y then isTrue (congrArg Except.error h)
      else isFalse (fun hh => h (Except.error.inj hh))
    | Except.error _, Except.ok _ => isFalse (fun hh => Except.noConfusion hh)
    | Except.ok _, Except.error _ => isFalse (fun hh => Except.noConfusion hh)
    | Except.ok x, Except.ok y =>
      if h : x = y then isTrue (congrArg Except.ok h)
      else isFalse (fun hh => h (Except.ok.inj hh))

/-- Invariant of the greedy wrap loop for finished lines: every finished
line is non-empty, and is a single word or fits `maxWidth` under the
wrap measure. -/
def goodWrapLines (measure : PyStr → ℤ) (maxWidth : ℤ)
    (lines : List (List PyStr)) : Prop :=
  ∀ l ∈ lines, l ≠ [] ∧ (l.length = 1 ∨ measure (lineText l) ≤ maxWidth)

/-- Invariant of the greedy wrap loop for the current line: empty, a
single word, or fitting `maxWidth` under the wrap measure. -/
def goodWrapCurrent (measure : PyStr → ℤ) (maxWidth : ℤ)
    (current : List PyStr) : Prop :=
  current = [] ∨ current.length = 1 ∨ measure (lineText current) ≤ maxWidth

/-- The `maxLines`-th wrapped line (the last one kept by the cap), as the
Python code obtains it: the last element of `lines[:max_lines]`. -/
def cappedLastLine (measure : PyStr → ℤ) (maxWidth : ℤ) (m : ℕ)
    (text : PyStr) : PyStr :=
  (((wrapWords measure maxWidth (splitWords text)).map lineText).take m).getLastD []

/-- The width-bound invariant of a finalized packed pill line: its
cumulative width (pill widths plus inter-pill gaps) fits the bound, or it
is a single pill individually wider than the bound; and any pill wider
than the bound sits alone on its line. -/
def goodPackLine (measure : PyStr → ℕ) (bound gapX : ℕ)
    (l : List PillItem) : Prop :=
  (lineWidthSum measure gapX l ≤ bound ∨
    ∃ it, l = [it] ∧ bound < pillWidth measure it) ∧
  ∀ it ∈ l, bound < pillWidth measure it → l = [it]

/-- One wrap step keeps the processed words intact: the flattened state
gains exactly the processed word. -/
theorem wrapStep_flatten (measure : PyStr → ℤ) (maxWidth : ℤ) (st : WrapSt)
    (w : PyStr) :
    (wrapStep measure maxWidth st w).1.flatten ++ (wrapStep measure maxWidth st w).2 =
      st.1.flatten ++ st.2 ++ [w] := by
  unfold wrapStep
  split_ifs with h1 h2
  · simp
  · simp [h2]
  · simp

/-- One wrap step preserves the width invariants of the finished lines
and the current line. -/
theorem wrapStep_good (measure : PyStr → ℤ) (maxWidth : ℤ) (st : WrapSt)
    (w : PyStr) (h1 : goodWrapLines measure maxWidth st.1)
    (h2 : goodWrapCurrent measure maxWidth st.2) :
    goodWrapLines measure maxWidth (wrapStep measure maxWidth st w).1 ∧
      goodWrapCurrent measure maxWidth (wrapStep measure maxWidth st w).2 := by
  unfold wrapStep
  split_ifs with hfit hemp
  · exact ⟨h1, Or.inr (Or.inr hfit)⟩
  · refine ⟨?_, Or.inl rfl⟩
    intro l hl
    rcases List.mem_append.1 hl with h | h
    · exact h1 l h
    · simp only [List.mem_singleton] at h
      subst h
      exact ⟨by simp, Or.inl rfl⟩
  · refine ⟨?_, Or.inr (Or.inl rfl)⟩
    intro l hl
    rcases List.mem_append.1 hl with h | h
    · exact h1 l h
    · simp only [List.mem_singleton] at h
      subst h
      refine ⟨hemp, ?_⟩
      rcases h2 with h | h
      · exact absurd h hemp
      · exact h

/-- The wrap fold preserves the invariants and processes the words in
order without splitting or losing any. -/
theorem wrapFold_spec (measure : PyStr → ℤ) (maxWidth : ℤ) :
    ∀ (words : List PyStr) (st : WrapSt),
      goodWrapLines measure maxWidth st.1 →
      goodWrapCurrent measure maxWidth st.2 →
      goodWrapLines measure maxWidth
          (words.foldl (wrapStep measure maxWidth) st).1 ∧
        goodWrapCurrent measure maxWidth
          (words.foldl (wrapStep measure maxWidth) st).2 ∧
        (words.foldl (wrapStep measure maxWidth) st).1.flatten ++
            (words.foldl (wrapStep measure maxWidth) st).2 =
          st.1.flatten ++ st.2 ++ words := by
  intro words
  induction words with
  | nil =>
    intro st h1 h2
    exact ⟨h1, h2, by simp⟩
  | cons w ws ih =>
    intro st h1 h2
    have hstep := wrapStep_good measure maxWidth st w h1 h2
    obtain ⟨ha, hb, hc⟩ := ih (wrapStep measure maxWidth st w) hstep.1 hstep.2
    refine ⟨ha, hb, ?_⟩
    rw [List.foldl_cons] at *
    rw [hc, wrapStep_flatten]
    simp

/-- The complete greedy wrap produces only good lines and its lines
flatten back to the exact word sequence. -/
theorem wrapWords_spec (measure : PyStr → ℤ) (maxWidth : ℤ)
    (words : List PyStr) :
    goodWrapLines measure maxWidth (wrapWords measure maxWidth words) ∧
      (wrapWords measure maxWidth words).flatten = words := by
  obtain ⟨h1, h2, h3⟩ :=
    wrapFold_spec measure maxWidth words ([], [])
      (by intro l hl; simp at hl) (Or.inl rfl)
  unfold wrapWords
  simp only []
  split_ifs with hemp
  · refine ⟨h1, ?_⟩
    rw [hemp] at h3
    simpa using h3
  · constructor
    · intro l hl
      rcases List.mem_append.1 hl with h | h
      · exact h1 l h
      · simp only [List.mem_singleton] at h
        subst h
        refine ⟨hemp, ?_⟩
        rcases h2 with h | h
        · exact absurd h hemp
        · exact h
    · rw [List.flatten_append]
      simpa using h3

/-- Claim C3 counterexample: with per-character bbox width 10, tracking
100 and maxWidth 100, the wrap of "aa bb" yields the two-word line
"aa bb", which is not a single-word line, yet its measured width under
the given tracking (the cursor advance the tracked renderer consumes,
`int(adv + tracking)` per character) is 550 > 100.  The wrap width check
uses `font.getbbox` and ignores tracking entirely, so the claim's width
bound "under the given tracking" fails. -/
theorem wrap_tracked_width_cex :
    ∃ l ∈ wrapWords (fun s => (10 * s.length : ℤ)) 100
        (splitWords ['a', 'a', ' ', 'b', 'b']),
      ¬(l.length = 1 ∧
          (100 : ℤ) < (fun s => (10 * s.length : ℤ)) (lineText l)) ∧
        (100 : ℤ) < trackedWidth (fun _ => 10) 100 (lineText l) := by
  refine ⟨[['a', 'a'], ['b', 'b']], by decide, by decide, ?_⟩
  have hl : lineText [['a', 'a'], ['b', 'b']] = ['a', 'a', ' ', 'b', 'b'] := by
    decide
  have hp : pyInt ((10 : ℚ) + ((100 : ℤ) : ℚ)) = 110 := by
    unfold pyInt
    norm_num
  rw [hl]
  unfold trackedWidth
  simp only [List.map_cons, List.map_nil, List.sum_cons, List.sum_nil, hp]
  norm_num

/-- Claim C3 (amended): every line produced by the greedy word-wrap of
`draw_wrapped_text` — except a line consisting of a single word that is
by itself wider than maxWidth — has measured width under the wrap
measure (`font.getbbox`, which ignores tracking) at most maxWidth; words
are kept whole: the lines flatten back to the exact word sequence, so a
word wider than maxWidth is kept unsplit on its own line. -/
theorem wrap_width_bound (measure : PyStr → ℤ) (maxWidth : ℤ) (text : PyStr) :
    (∀ l ∈ wrapWords measure maxWidth (splitWords text),
        ¬(l.length = 1 ∧ maxWidth < measure (lineText l)) →
          measure (lineText l) ≤ maxWidth) ∧
      (wrapWords measure maxWidth (splitWords text)).flatten = splitWords text ∧
      ∀ l ∈ wrapWords measure maxWidth (splitWords text), l ≠ [] := by
  obtain ⟨hg, hf⟩ := wrapWords_spec measure maxWidth (splitWords text)
  refine ⟨?_, hf, ?_⟩
  · intro l hl hnot
    obtain ⟨hne, hdis⟩ := hg l hl
    rcases hdis with h1 | h2
    · by_contra hlt
      exact hnot ⟨h1, lt_of_not_le hlt⟩
    · exact h2
  · intro l hl
    exact (hg l hl).1

/-- Claim C3 witness: the two-word line "aa bb" of the wrap of "aa bb"
satisfies the amended width bound at a concrete input. -/
theorem wrap_width_bound_witness :
    (10 * (lineText [['a', 'a'], ['b', 'b']]).length : ℤ) ≤ 100 :=
  (wrap_width_bound (fun s => (10 * s.length : ℤ)) 100
      ['a', 'a', ' ', 'b', 'b']).1
    [['a', 'a'], ['b', 'b']] (by decide) (by decide)

/-- The shrinking loop of `draw_wrapped_text` returns the longest prefix
of its input obtained by dropping final characters on which the stopping
condition holds: every strictly longer prefix fails both the width test
and the length-3 floor. -/
theorem shrinkLastGo_spec (measure : PyStr → ℤ) (maxWidth : ℤ) :
    ∀ (fuel : ℕ) (L : PyStr), L.length ≤ fuel →
      ∃ k, k ≤ L.length ∧
        shrinkLastGo measure maxWidth fuel L = L.take k ∧
        shrinkCond measure maxWidth (L.take k) ∧
        ∀ j, k < j → j ≤ L.length → ¬ shrinkCond measure maxWidth (L.take j) := by
  intro fuel
  induction fuel with
  | zero =>
    intro L hL
    have hnil : L = [] := List.eq_nil_of_length_eq_zero (Nat.le_zero.1 hL)
    subst hnil
    exact ⟨0, le_refl 0, rfl, Or.inr (by simp), by intro j hj hj2; omega⟩
  | succ fuel ih =>
    intro L hL
    simp only [shrinkLastGo]
    by_cases hc : shrinkCond measure maxWidth L
    · rw [if_pos hc]
      refine ⟨L.length, le_refl _, (List.take_length L).symm, ?_, ?_⟩
      · rwa [List.take_length]
      · intro j hj hj2; omega
    · rw [if_neg hc]
      have hlen : 3 < L.length := by
        unfold shrinkCond at hc
        push_neg at hc
        exact hc.2
      have hdl : L.dropLast.length = L.length - 1 := by
        simp [List.length_dropLast]
      have hle : L.dropLast.length ≤ fuel := by omega
      obtain ⟨k, hk, heq, hcond, hmax⟩ := ih L.dropLast hle
      have htk : ∀ j, j ≤ L.length - 1 → L.dropLast.take j = L.take j := by
        intro j hj
        rw [List.dropLast_eq_take, List.take_take, min_eq_left hj]
      refine ⟨k, by omega, ?_, ?_, ?_⟩
      · rw [heq, htk k (by omega)]
      · rw [← htk k (by omega)]
        exact hcond
      · intro j hj hj2
        by_cases hjL : j ≤ L.length - 1
        · rw [← htk j hjL]
          exact hmax j hj (by omega)
        · have hje : j = L.length := by omega
          subst hje
          rwa [List.take_length]

/-- Claim C1: if greedy wrapping produces more than `maxLines` lines
(with integer `maxLines` at least 1), `draw_wrapped_text` keeps exactly
the first `maxLines` lines, the first `maxLines - 1` unchanged, and emits
the last as `Truncated(prefix, "...")` where the prefix is obtained from
the `maxLines`-th line by dropping final characters, stopping as soon as
the measured width of prefix + "..." fits maxWidth or the prefix length
has dropped to at most 3 (every longer prefix fails both); the rendered
form of that last line ends with "...". -/
theorem wrapped_text_line_cap (measure : PyStr → ℤ) (maxWidth : ℤ) (m : ℕ)
    (text : PyStr) (hm : 1 ≤ m)
    (hover : m < ((wrapWords measure maxWidth (splitWords text)).map lineText).length) :
    (draw_wrapped_text measure maxWidth (some m) text).length = m ∧
      (draw_wrapped_text measure maxWidth (some m) text).take (m - 1) =
        (((wrapWords measure maxWidth (splitWords text)).map lineText).take (m - 1)).map
          TextLine.plain ∧
      ∃ p k,
        (draw_wrapped_text measure maxWidth (some m) text).getLastD (TextLine.plain []) =
            TextLine.truncated p ellipsisText ∧
          k ≤ (cappedLastLine measure maxWidth m text).length ∧
          p = (cappedLastLine measure maxWidth m text).take k ∧
          shrinkCond measure maxWidth p ∧
          (∀ j, k < j → j ≤ (cappedLastLine measure maxWidth m text).length →
            ¬ shrinkCond measure maxWidth
                ((cappedLastLine measure maxWidth m text).take j)) ∧
          ∃ q, renderedText (TextLine.truncated p ellipsisText) = q ++ ellipsisText := by
  have hcond : m ≠ 0 ∧
      m < ((wrapWords measure maxWidth (splitWords text)).map lineText).length :=
    ⟨by omega, hover⟩
  have hout : draw_wrapped_text measure maxWidth (some m) text =
      ((((wrapWords measure maxWidth (splitWords text)).map lineText).take (m - 1)).map
          TextLine.plain) ++
        [TextLine.truncated
            (shrinkLast measure maxWidth (cappedLastLine measure maxWidth m text))
            ellipsisText] := by
    simp only [draw_wrapped_text, capLines, cappedLastLine]
    rw [if_pos hcond]
  have hover2 : m < (wrapWords measure maxWidth (splitWords text)).length := by
    simpa using hover
  have hlenA :
      ((((wrapWords measure maxWidth (splitWords text)).map lineText).take (m - 1)).map
        TextLine.plain).length = m - 1 := by
    simp only [List.length_map, List.length_take]
    omega
  obtain ⟨k, hk, heq, hcondk, hmax⟩ :=
    shrinkLastGo_spec measure maxWidth
      (cappedLastLine measure maxWidth m text).length
      (cappedLastLine measure maxWidth m text) (le_refl _)
  refine ⟨?_, ?_, shrinkLast measure maxWidth (cappedLastLine measure maxWidth m text),
    k, ?_, hk, ?_, ?_, ?_, ?_⟩
  · rw [hout]
    simp only [List.length_append, hlenA, List.length_singleton]
    omega
  · rw [hout, List.take_left' hlenA]
  · rw [hout]
    exact List.getLastD_concat _ _ _
  · exact heq
  · unfold shrinkLast
    rw [heq]
    exact hcondk
  · exact hmax
  · exact ⟨shrinkLast measure maxWidth (cappedLastLine measure maxWidth m text), rfl⟩

/-- Claim C1 witness: wrapping "aa bb cc dd" at width 5 (per-character
measure) with maxLines 1 produces one Truncated line with prefix "aa ". -/
theorem wrapped_text_line_cap_witness :
    (draw_wrapped_text (fun s => (s.length : ℤ)) 5 (some 1)
        ['a', 'a', ' ', 'b', 'b', ' ', 'c', 'c', ' ', 'd', 'd']).length = 1 :=
  (wrapped_text_line_cap (fun s => (s.length : ℤ)) 5 1
      ['a', 'a', ' ', 'b', 'b', ' ', 'c', 'c', ' ', 'd', 'd']
      (by norm_num) (by decide)).1

/-- Claim C4 counterexample: with advance 2.5 for every character and
tracking 0, the code draws the second character at x = 2 (truncation
toward zero of 2.5), while the claimed round-half-up advance would place
it at x = 3.  The claimed behaviour also returns an end cursor, which the
source function (returning `None`) does not. -/
theorem tracked_rounding_cex :
    draw_text_with_tracking (fun _ => (5 : ℚ) / 2) 0 0 0 ['a', 'a'] ≠
      (draw_text_with_tracking_claimed (fun _ => (5 : ℚ) / 2) 0 0 0 ['a', 'a']).1 := by
  have hp : pyInt ((5 : ℚ) / 2) = 2 := by
    unfold pyInt
    norm_num
    decide
  have hr : roundHalfUp ((5 : ℚ) / 2) = 3 := by
    unfold roundHalfUp
    norm_num
  have h1 : draw_text_with_tracking (fun _ => (5 : ℚ) / 2) 0 0 0 ['a', 'a'] =
      [((0, 0), 'a'), ((2, 0), 'a')] := by
    simp [draw_text_with_tracking, hp]
  have h2 : (draw_text_with_tracking_claimed (fun _ => (5 : ℚ) / 2) 0 0 0 ['a', 'a']).1 =
      [((0, 0), 'a'), ((3, 0), 'a')] := by
    simp [draw_text_with_tracking_claimed, hr]
  rw [h1, h2]
  decide

/-- Claim C4 (amended): `draw_text_with_tracking` draws each character in
order, the k-th character at a cursor that is the start position plus the
sum of `int(advance(char) + tracking)` (truncation toward zero of the
sum) over the preceding characters — the cursor sequence is the scanl of
those advances; the Python function returns `None`, so no end cursor is
part of its result. -/
theorem tracked_cursor_positions (adv : Char → ℚ) (x y tracking : ℤ)
    (s : PyStr) :
    draw_text_with_tracking adv x y tracking s =
      ((List.scanl (fun acc c => acc + pyInt (adv c + tracking)) x s).zip s).map
        (fun pc => ((pc.1, y), pc.2)) := by
  induction s generalizing x with
  | nil => rfl
  | cons c rest ih =>
    rw [List.scanl_cons]
    simp only [List.cons_append, List.nil_append, List.zip_cons_cons, List.map_cons]
    rw [draw_text_with_tracking, ih]

/-- The pill display-text truncation loop reaches its result by iterating
the drop-4-append-ellipsis step exactly until the first iterate satisfies
the stopping condition (fits, or at most 6 characters); no earlier
iterate satisfies it. -/
theorem truncDisplayGo_spec (measure : PyStr → ℕ) (maxTextWidth : ℤ) :
    ∀ (fuel : ℕ) (s : PyStr), s.length ≤ fuel →
      ∃ k, truncDisplayGo measure maxTextWidth fuel s = truncStep^[k] s ∧
        truncStop measure maxTextWidth (truncStep^[k] s) ∧
        ∀ j, j < k → ¬ truncStop measure maxTextWidth (truncStep^[j] s) := by
  intro fuel
  induction fuel with
  | zero =>
    intro s hs
    have hnil : s = [] := List.eq_nil_of_length_eq_zero (Nat.le_zero.1 hs)
    subst hnil
    refine ⟨0, rfl, Or.inr (by simp), by intro j hj; omega⟩
  | succ fuel ih =>
    intro s hs
    simp only [truncDisplayGo]
    by_cases hg : maxTextWidth < (measure s : ℤ) ∧ 6 < s.length
    · rw [if_pos hg]
      have hlen : (truncStep s).length = s.length - 1 := by
        simp only [truncStep, List.length_append, List.length_take, ellipsisText,
          List.length_cons, List.length_nil]
        omega
      have hle : (truncStep s).length ≤ fuel := by omega
      obtain ⟨k, heq, hstop, hmin⟩ := ih (truncStep s) hle
      refine ⟨k + 1, ?_, ?_, ?_⟩
      · rw [heq, Function.iterate_succ_apply]
      · rw [Function.iterate_succ_apply]
        exact hstop
      · intro j hj
        cases j with
        | zero =>
          simp only [Function.iterate_zero_apply]
          unfold truncStop
          push_neg
          exact ⟨hg.1, hg.2⟩
        | succ j =>
          rw [Function.iterate_succ_apply]
          exact hmin j (by omega)
    · rw [if_neg hg]
      refine ⟨0, rfl, ?_, by intro j hj; omega⟩
      simp only [Function.iterate_zero_apply]
      unfold truncStop
      rcases not_and_or.1 hg with h | h
      · exact Or.inl (le_of_not_lt h)
      · exact Or.inr (le_of_not_lt h)

/-- Claim C8: in the pill rendering pass, the displayed text of an item
is obtained from its text by iterating "drop the last 4 characters and
append ellipsis", remeasuring after each step, stopping at the first
iterate that fits `maxTextWidth = maxRightEdge - cursor - 50` or has at
most 6 characters (at which point the pill is drawn regardless of
overflow); every earlier iterate fails both conditions, so an item that
already fits is displayed unchanged. -/
theorem pill_text_truncation (measure : PyStr → ℕ) (maxTextWidth : ℤ)
    (s : PyStr) :
    ∃ k, truncDisplayText measure maxTextWidth s = truncStep^[k] s ∧
      truncStop measure maxTextWidth (truncStep^[k] s) ∧
      ∀ j, j < k → ¬ truncStop measure maxTextWidth (truncStep^[j] s) :=
  truncDisplayGo_spec measure maxTextWidth s.length s (le_refl _)

/-- Claim C8 witness: the truncation loop applied at a concrete
measure, width and ten-character text. -/
theorem pill_text_truncation_witness :
    ∃ k, truncDisplayText (fun t => t.length) 5
          ['a', 'b', 'c', 'd', 'e', 'f', 'g', 'h', 'i', 'j'] =
        truncStep^[k] ['a', 'b', 'c', 'd', 'e', 'f', 'g', 'h', 'i', 'j'] ∧
      truncStop (fun t => t.length) 5
        (truncStep^[k] ['a', 'b', 'c', 'd', 'e', 'f', 'g', 'h', 'i', 'j']) ∧
      ∀ j, j < k → ¬ truncStop (fun t => t.length) 5
        (truncStep^[j] ['a', 'b', 'c', 'd', 'e', 'f', 'g', 'h', 'i', 'j']) :=
  pill_text_truncation (fun t => t.length) 5
    ['a', 'b', 'c', 'd', 'e', 'f', 'g', 'h', 'i', 'j']

/-- Claim C9: `draw_pill` resolves the pill's top-left by strict
priority — (1) explicit position; (2) anchor plus a given (non-empty)
reference text and font: right of the reference's measured extent plus
gap, vertically centered against the reference's height; (3) anchor
alone as top-left; (4) origin — with the pixel offset added after
whichever rule applied, and the returned bounding box reflecting the
resolved position and the pill's width and height. -/
theorem pill_position_priority (font : FontM) (text : PyStr)
    (position relativeTo : Option (ℤ × ℤ)) (relativeToText : Option PyStr)
    (relativeToFont : Option FontM) (gap : ℤ) (offset : ℤ × ℤ)
    (paddingX pillHeight : ℤ) :
    (∀ p, position = some p →
      draw_pill font text position relativeTo relativeToText relativeToFont
          gap offset paddingX pillHeight =
        ⟨p.1 + offset.1, p.2 + offset.2,
          p.1 + offset.1 + ((font text).x1 - (font text).x0 + 2 * paddingX),
          p.2 + offset.2 + pillHeight⟩) ∧
    (∀ r t f, position = none → relativeTo = some r →
      relativeToText = some t → t ≠ [] → relativeToFont = some f →
      draw_pill font text position relativeTo relativeToText relativeToFont
          gap offset paddingX pillHeight =
        ⟨r.1 + ((f t).x1 - (f t).x0) + gap + offset.1,
          r.2 + Int.fdiv (((f t).y1 - (f t).y0) - pillHeight) 2 + offset.2,
          r.1 + ((f t).x1 - (f t).x0) + gap + offset.1 +
            ((font text).x1 - (font text).x0 + 2 * paddingX),
          r.2 + Int.fdiv (((f t).y1 - (f t).y0) - pillHeight) 2 + offset.2 +
            pillHeight⟩) ∧
    (∀ r, position = none → relativeTo = some r →
      (relativeToText = none ∨ relativeToText = some [] ∨ relativeToFont = none) →
      draw_pill font text position relativeTo relativeToText relativeToFont
          gap offset paddingX pillHeight =
        ⟨r.1 + offset.1, r.2 + offset.2,
          r.1 + offset.1 + ((font text).x1 - (font text).x0 + 2 * paddingX),
          r.2 + offset.2 + pillHeight⟩) ∧
    (position = none → relativeTo = none →
      draw_pill font text position relativeTo relativeToText relativeToFont
          gap offset paddingX pillHeight =
        ⟨offset.1, offset.2,
          offset.1 + ((font text).x1 - (font text).x0 + 2 * paddingX),
          offset.2 + pillHeight⟩) := by
  refine ⟨?_, ?_, ?_, ?_⟩
  · intro p hp
    subst hp
    rfl
  · intro r t f hp hr ht htne hf
    subst hp; subst hr; subst ht; subst hf
    simp only [draw_pill, if_neg htne]
  · intro r hp hr hd
    subst hp; subst hr
    rcases hd with h | h | h
    · subst h
      cases relativeToFont <;> rfl
    · subst h
      cases relativeToFont <;> simp [draw_pill]
    · subst h
      cases relativeToText <;> rfl
  · intro hp hr
    subst hp; subst hr
    cases relativeToText <;> cases relativeToFont <;> simp [draw_pill]

/-- Claim C9 witness: each of the four positioning rules exercised at a
concrete input.  The reference font maps the reference text "x" to a
bounding box of width 10 and height 30; the pill font gives text width
20, so the pill is 70 wide. -/
theorem pill_position_priority_witness :
    draw_pill (fun _ => ⟨0, 0, 20, 10⟩) ['p'] (some (5, 6)) none none none
        0 (1, 2) 25 72 = ⟨6, 8, 76, 80⟩ ∧
    draw_pill (fun _ => ⟨0, 0, 20, 10⟩) ['p'] none (some (10, 20)) (some ['x'])
        (some (fun _ => ⟨2, 3, 12, 33⟩)) 4 (1, 2) 25 72 = ⟨25, 1, 95, 73⟩ ∧
    draw_pill (fun _ => ⟨0, 0, 20, 10⟩) ['p'] none (some (7, 8)) (some [])
        (some (fun _ => ⟨2, 3, 12, 33⟩)) 4 (1, 2) 25 72 = ⟨8, 10, 78, 82⟩ ∧
    draw_pill (fun _ => ⟨0, 0, 20, 10⟩) ['p'] none none none none
        0 (1, 2) 25 72 = ⟨1, 2, 71, 74⟩ := by
  refine ⟨?_, ?_, ?_, ?_⟩
  · exact (pill_position_priority (fun _ => ⟨0, 0, 20, 10⟩) ['p'] (some (5, 6))
      none none none 0 (1, 2) 25 72).1 (5, 6) rfl
  · exact (pill_position_priority (fun _ => ⟨0, 0, 20, 10⟩) ['p'] none
      (some (10, 20)) (some ['x']) (some (fun _ => ⟨2, 3, 12, 33⟩)) 4 (1, 2)
      25 72).2.1 (10, 20) ['x'] (fun _ => ⟨2, 3, 12, 33⟩) rfl rfl rfl
      (by decide) rfl
  · exact (pill_position_priority (fun _ => ⟨0, 0, 20, 10⟩) ['p'] none
      (some (7, 8)) (some []) (some (fun _ => ⟨2, 3, 12, 33⟩)) 4 (1, 2)
      25 72).2.2.1 (7, 8) rfl rfl (Or.inr (Or.inl rfl))
  · exact (pill_position_priority (fun _ => ⟨0, 0, 20, 10⟩) ['p'] none none
      none none 0 (1, 2) 25 72).2.2.2 rfl rfl

/-- Claim C10: when `draw_pill` is called with an anchor and a reference
font but an empty reference text, Python truthiness skips the
relative-to-text branch: the anchor is used directly as the top-left
(rule 3) and the offset is then added — the same box as an anchor-only
call. -/
theorem pill_empty_reference_text (font : FontM) (text : PyStr) (r : ℤ × ℤ)
    (f : FontM) (gap : ℤ) (offset : ℤ × ℤ) (paddingX pillHeight : ℤ) :
    draw_pill font text none (some r) (some []) (some f) gap offset
        paddingX pillHeight =
      draw_pill font text none (some r) none none gap offset
        paddingX pillHeight ∧
    draw_pill font text none (some r) (some []) (some f) gap offset
        paddingX pillHeight =
      ⟨r.1 + offset.1, r.2 + offset.2,
        r.1 + offset.1 + ((font text).x1 - (font text).x0 + 2 * paddingX),
        r.2 + offset.2 + pillHeight⟩ :=
  ⟨rfl, rfl⟩

/-- Claim C5 counterexample: calling the modelled `generate_image` with
the out-of-enum category "slowest" fails with an `UnboundLocalError`
(the `match station` fell through, leaving `bg_image_path` unbound) — an
error distinct from the `InvalidCategoryError` the claim names, which
the source does not define. -/
theorem invalid_category_cex :
    generate_image (fun _ => 0) (fun _ => 0) 1080 0 stationBadVal [] [] [] [] =
        Except.error PyErr.unboundLocal ∧
      PyErr.unboundLocal ≠ PyErr.invalidCategory := by
  exact ⟨by decide, by decide⟩

/-- Claim C5 (amended): for any category value outside the four Station
enum values, `generate_image` fails before producing any image — with an
`UnboundLocalError` from the fall-through `match station` (the code
defines no `InvalidCategoryError`) — and never returns a layout. -/
theorem invalid_category_unbound (titleMeasure : PyStr → ℤ)
    (pillMeasure : PyStr → ℕ) (width : ℤ) (g : ℕ) (station : String)
    (stationName : PyStr) (verbatims tags artists : List PyStr)
    (h1 : station ≠ stationSlowerVal) (h2 : station ≠ stationSlowVal)
    (h3 : station ≠ stationFastVal) (h4 : station ≠ stationFasterVal) :
    generate_image titleMeasure pillMeasure width g station stationName
        verbatims tags artists = Except.error PyErr.unboundLocal ∧
      ∀ plan, generate_image titleMeasure pillMeasure width g station
          stationName verbatims tags artists ≠ Except.ok plan := by
  have hs : stationScene station = none := by
    unfold stationScene
    rw [if_neg, if_neg]
    · rintro (h | h)
      · exact h4 h
      · exact h3 h
    · rintro (h | h)
      · exact h1 h
      · exact h2 h
  constructor
  · unfold generate_image
    rw [hs]
  · intro plan
    unfold generate_image
    rw [hs]
    intro hcontra
    exact Except.noConfusion hcontra

/-- Claim C5 witness: the amended behaviour at the concrete out-of-enum
category value "slowest" with non-trivial inputs. -/
theorem invalid_category_unbound_witness :
    generate_image (fun s => (s.length : ℤ)) (fun s => s.length) 500 7
        stationBadVal ['t'] [['v']] [] [] = Except.error PyErr.unboundLocal :=
  (invalid_category_unbound (fun s => (s.length : ℤ)) (fun s => s.length) 500 7
      stationBadVal ['t'] [['v']] [] [] (by decide) (by decide) (by decide)
      (by decide)).1

theorem lineWidthSum_nil (measure : PyStr → ℕ) (gapX : ℕ) :
    lineWidthSum measure gapX [] = 0 := by
  simp [lineWidthSum]

theorem lineWidthSum_singleton (measure : PyStr → ℕ) (gapX : ℕ)
    (it : PillItem) :
    lineWidthSum measure gapX [it] = pillWidth measure it := by
  simp [lineWidthSum]

/-- Appending a pill to a line adds its width plus one gap when the line
was non-empty — exactly the `needed_width` bookkeeping of the packing
loop. -/
theorem lineWidthSum_concat (measure : PyStr → ℕ) (gapX : ℕ)
    (l : List PillItem) (it : PillItem) :
    lineWidthSum measure gapX (l ++ [it]) =
      lineWidthSum measure gapX l +
        (if l = [] then pillWidth measure it else pillWidth measure it + gapX) := by
  cases l with
  | nil => simp [lineWidthSum]
  | cons x xs =>
    simp only [lineWidthSum, List.map_append, List.sum_append, List.map_cons,
      List.map_nil, List.sum_cons, List.sum_nil, List.length_append,
      List.length_cons, List.length_nil, if_neg (List.cons_ne_nil x xs)]
    have h1 : xs.length + 1 + (0 + 1) - 1 = xs.length + 1 := by omega
    have h2 : xs.length + 1 - 1 = xs.length := by omega
    rw [h1, h2, Nat.succ_mul]
    ring

/-- Every pill on a line weighs at most the line's cumulative width. -/
theorem pillWidth_le_lineWidthSum (measure : PyStr → ℕ) (gapX : ℕ)
    {it : PillItem} {l : List PillItem} (h : it ∈ l) :
    pillWidth measure it ≤ lineWidthSum measure gapX l := by
  unfold lineWidthSum
  have hsum : pillWidth measure it ≤ (l.map (pillWidth measure)).sum := by
    induction l with
    | nil => simp at h
    | cons x xs ih =>
      rcases List.mem_cons.1 h with hx | hx
      · subst hx; simp
      · simp only [List.map_cons, List.sum_cons]
        exact le_trans (ih hx) (Nat.le_add_left _ _)
  exact le_trans hsum (Nat.le_add_right _ _)

/-- The running current line of the packing loop, when flushed, satisfies
the packed-line invariant. -/
theorem goodPackLine_of_current (measure : PyStr → ℕ) (bound gapX : ℕ)
    {current : List PillItem} {curW : ℕ}
    (hw : curW = lineWidthSum measure gapX current)
    (hb : curW ≤ bound ∨ ∃ it, current = [it])
    (ha : ∀ it ∈ current, bound < pillWidth measure it → current = [it]) :
    goodPackLine measure bound gapX current := by
  refine ⟨?_, ha⟩
  rcases hb with h | ⟨it, hit⟩
  · exact Or.inl (hw ▸ h)
  · subst hit
    by_cases hover : bound < pillWidth measure it
    · exact Or.inr ⟨it, rfl, hover⟩
    · left
      rw [lineWidthSum_singleton]
      exact le_of_not_lt hover

/-- Master invariant of the pill packing loop: all finalized lines
satisfy the width invariant, the line count never exceeds `maxLines`, a
non-empty current line implies spare capacity, and the state content is
always the already-consumed prefix of the item sequence. -/
theorem packLoop_spec (measure : PyStr → ℕ) (maxLines bound gapX : ℕ) :
    ∀ (items : List PillItem) (lines : List (List PillItem))
      (current : List PillItem) (curW : ℕ),
      (∀ l ∈ lines, goodPackLine measure bound gapX l) →
      curW = lineWidthSum measure gapX current →
      (curW ≤ bound ∨ ∃ it, current = [it]) →
      (∀ it ∈ current, bound < pillWidth measure it → current = [it]) →
      lines.length ≤ maxLines →
      (current ≠ [] → lines.length < maxLines) →
      (∀ l ∈ (packLoop measure maxLines bound gapX items lines current curW).1,
          goodPackLine measure bound gapX l) ∧
        ((packLoop measure maxLines bound gapX items lines current curW).2 = [] ∨
          goodPackLine measure bound gapX
            (packLoop measure maxLines bound gapX items lines current curW).2) ∧
        (packLoop measure maxLines bound gapX items lines current curW).1.length ≤
          maxLines ∧
        ((packLoop measure maxLines bound gapX items lines current curW).2 ≠ [] →
          (packLoop measure maxLines bound gapX items lines current curW).1.length <
            maxLines) ∧
        ∃ n, n ≤ items.length ∧
          (packLoop measure maxLines bound gapX items lines current curW).1.flatten ++
              (packLoop measure maxLines bound gapX items lines current curW).2 =
            lines.flatten ++ current ++ items.take n := by
  intro items
  induction items with
  | nil =>
    intro lines current curW hlines hw hb ha hlen hne
    simp only [packLoop]
    by_cases hc : current = []
    · subst hc
      exact ⟨hlines, Or.inl rfl, hlen, fun h => absurd rfl h, 0, le_refl 0, by simp⟩
    · exact ⟨hlines, Or.inr (goodPackLine_of_current measure bound gapX hw hb ha),
        hlen, fun _ => hne hc, 0, le_refl 0, by simp⟩
  | cons it rest ih =>
    intro lines current curW hlines hw hb ha hlen hne
    simp only [packLoop]
    by_cases hfit : curW +
        (if current = [] then pillWidth measure it else pillWidth measure it + gapX) ≤
          bound ∧ lines.length < maxLines
    · rw [if_pos hfit]
      have hw2 : curW +
          (if current = [] then pillWidth measure it else pillWidth measure it + gapX) =
            lineWidthSum measure gapX (current ++ [it]) := by
        rw [hw, lineWidthSum_concat]
      have ha2 : ∀ it2 ∈ current ++ [it],
          bound < pillWidth measure it2 → current ++ [it] = [it2] := by
        intro it2 hmem hbig
        exfalso
        have hle := pillWidth_le_lineWidthSum measure gapX hmem
        rw [← hw2] at hle
        omega
      obtain ⟨g1, g2, g3, g4, n, hn, g5⟩ :=
        ih lines (current ++ [it])
          (curW + (if current = [] then pillWidth measure it else pillWidth measure it + gapX))
          hlines hw2 (Or.inl hfit.1) ha2 hlen (fun _ => hfit.2)
      refine ⟨g1, g2, g3, g4, n + 1, by simp only [List.length_cons]; omega, ?_⟩
      rw [g5, List.take_succ_cons]
      simp
    · rw [if_neg hfit]
      by_cases hc : current = []
      · subst hc
        simp only [eq_self_iff_true, if_true]
        by_cases hlt : lines.length < maxLines
        · rw [if_pos hlt]
          obtain ⟨g1, g2, g3, g4, n, hn, g5⟩ :=
            ih lines [it] (pillWidth measure it) hlines
              (lineWidthSum_singleton measure gapX it).symm
              (Or.inr ⟨it, rfl⟩)
              (by intro it2 h2 _; simp only [List.mem_singleton] at h2; rw [h2])
              hlen (fun _ => hlt)
          refine ⟨g1, g2, g3, g4, n + 1, by simp only [List.length_cons]; omega, ?_⟩
          rw [g5, List.take_succ_cons]
          simp
        · rw [if_neg hlt]
          exact ⟨hlines, Or.inl rfl, hlen, fun h => absurd rfl h, 0, by omega, by simp⟩
      · simp only [if_neg hc]
        have hcur := goodPackLine_of_current measure bound gapX hw hb ha
        have hlines2 : ∀ l ∈ lines ++ [current], goodPackLine measure bound gapX l := by
          intro l hl
          rcases List.mem_append.1 hl with h | h
          · exact hlines l h
          · simp only [List.mem_singleton] at h
            subst h
            exact hcur
        have hlen2 : (lines ++ [current]).length ≤ maxLines := by
          have := hne hc
          simp only [List.length_append, List.length_singleton]
          omega
        by_cases hlt : (lines ++ [current]).length < maxLines
        · rw [if_pos hlt]
          obtain ⟨g1, g2, g3, g4, n, hn, g5⟩ :=
            ih (lines ++ [current]) [it] (pillWidth measure it) hlines2
              (lineWidthSum_singleton measure gapX it).symm
              (Or.inr ⟨it, rfl⟩)
              (by intro it2 h2 _; simp only [List.mem_singleton] at h2; rw [h2])
              hlen2 (fun _ => hlt)
          refine ⟨g1, g2, g3, g4, n + 1, by simp only [List.length_cons]; omega, ?_⟩
          rw [g5, List.take_succ_cons]
          simp
        · rw [if_neg hlt]
          refine ⟨hlines2, Or.inl rfl, hlen2, fun h => absurd rfl h, 0, by omega, ?_⟩
          simp

/-- The complete pill packing: every output line satisfies the width
invariant, the line count is capped, and the output flattens to a prefix
of the input sequence. -/
theorem packPills_spec (measure : PyStr → ℕ) (maxLines bound gapX : ℕ)
    (items : List PillItem) :
    (∀ l ∈ packPills measure maxLines bound gapX items,
        goodPackLine measure bound gapX l) ∧
      (packPills measure maxLines bound gapX items).length ≤ maxLines ∧
      ∃ n, n ≤ items.length ∧
        (packPills measure maxLines bound gapX items).flatten = items.take n := by
  obtain ⟨g1, g2, g3, g4, n, hn, g5⟩ :=
    packLoop_spec measure maxLines bound gapX items [] [] 0
      (by intro l hl; simp at hl)
      (by simp [lineWidthSum])
      (Or.inl (Nat.zero_le _))
      (by intro it h; simp at h)
      (Nat.zero_le _)
      (fun h => absurd rfl h)
  have g5' : (packLoop measure maxLines bound gapX items [] [] 0).1.flatten ++
      (packLoop measure maxLines bound gapX items [] [] 0).2 = items.take n := by
    rw [g5]; simp
  unfold packPills
  simp only []
  split_ifs with hif
  · refine ⟨?_, ?_, n, hn, ?_⟩
    · intro l hl
      rcases List.mem_append.1 hl with h | h
      · exact g1 l h
      · simp only [List.mem_singleton] at h
        subst h
        rcases g2 with h2 | h2
        · exact absurd h2 hif.1
        · exact h2
    · simp only [List.length_append, List.length_singleton]
      omega
    · rw [List.flatten_append]
      simpa using g5'
  · refine ⟨g1, g3, n, hn, ?_⟩
    by_cases h2 : (packLoop measure maxLines bound gapX items [] [] 0).2 = []
    · rw [← g5', h2, List.append_nil]
    · exact absurd ⟨h2, g4 h2⟩ hif

/-- Claim C2: every line finalized by the pill packing loop has the sum
of its pill widths (measured text width plus 2x25 px of padding each)
plus `(count - 1) * gapX` at most `maxRightEdge - start`, unless it is a
single pill individually wider than that bound; any pill wider than the
bound occupies its line alone. -/
theorem pack_width_bound (measure : PyStr → ℕ) (maxLines gapX start maxRight : ℕ)
    (items : List PillItem) :
    ∀ l ∈ packPills measure maxLines (maxRight - start) gapX items,
      (lineWidthSum measure gapX l ≤ maxRight - start ∨
        ∃ it, l = [it] ∧ maxRight - start < pillWidth measure it) ∧
      ∀ it ∈ l, maxRight - start < pillWidth measure it → l = [it] :=
  fun l hl =>
    (packPills_spec measure maxLines (maxRight - start) gapX items).1 l hl

/-- Claim C2 witness: with bound 166 - 66 = 100 and two pills of width
52 each (52 + 24 + 52 > 100), the first packed line is the first pill
alone, and it satisfies the width invariant. -/
theorem pack_width_bound_witness :
    (lineWidthSum (fun s => s.length) 24
          [⟨PillCat.tag, ['a', 'b'], WHITE⟩] ≤ 166 - 66 ∨
        ∃ it, [⟨PillCat.tag, ['a', 'b'], WHITE⟩] = [it] ∧
          166 - 66 < pillWidth (fun s => s.length) it) ∧
      ∀ it ∈ [(⟨PillCat.tag, ['a', 'b'], WHITE⟩ : PillItem)],
        166 - 66 < pillWidth (fun s => s.length) it →
          [(⟨PillCat.tag, ['a', 'b'], WHITE⟩ : PillItem)] = [it] :=
  pack_width_bound (fun s => s.length) 4 24 66 166
    [⟨PillCat.tag, ['a', 'b'], WHITE⟩, ⟨PillCat.tag, ['c', 'd'], WHITE⟩]
    [⟨PillCat.tag, ['a', 'b'], WHITE⟩] (by decide)

/-- Claim C6: the pill packing loop finalizes at most `maxLines` lines,
and the output contains exactly a prefix of the (shuffled) item
sequence — once the cap is reached, processing stops and every remaining
item is absent from the output, never queued or re-attempted. -/
theorem pack_line_cap (measure : PyStr → ℕ) (maxLines bound gapX : ℕ)
    (items : List PillItem) :
    (packPills measure maxLines bound gapX items).length ≤ maxLines ∧
      ∃ n, n ≤ items.length ∧
        (packPills measure maxLines bound gapX items).flatten = items.take n := by
  obtain ⟨-, h2, h3⟩ := packPills_spec measure maxLines bound gapX items
  exact ⟨h2, h3⟩

/-- Taking the element drawn by a Fisher-Yates step and erasing it from
the list is a permutation. -/
theorem getElem_cons_eraseIdx_perm {α : Type} :
    ∀ (l : List α) (j : ℕ) (h : j < l.length),
      List.Perm (l[j] :: l.eraseIdx j) l := by
  intro l
  induction l with
  | nil =>
    intro j h
    simp at h
  | cons x xs ih =>
    intro j h
    cases j with
    | zero =>
      simp only [List.getElem_cons_zero, List.eraseIdx_cons_zero]
      exact List.Perm.refl _
    | succ j =>
      have hj : j < xs.length := by simpa using h
      simp only [List.getElem_cons_succ, List.eraseIdx_cons_succ]
      exact (List.Perm.swap x (xs[j]) _).trans ((ih j hj).cons x)

/-- The modelled Fisher-Yates shuffle permutes its input. -/
theorem shuffleGo_perm {α : Type} :
    ∀ (fuel g : ℕ) (l : List α), l.length ≤ fuel →
      List.Perm (shuffleGo g fuel l) l := by
  intro fuel
  induction fuel with
  | zero =>
    intro g l h
    have hnil : l = [] := List.eq_nil_of_length_eq_zero (Nat.le_zero.1 h)
    subst hnil
    simp only [shuffleGo]
    exact List.Perm.nil
  | succ fuel ih =>
    intro g l h
    cases l with
    | nil =>
      simp only [shuffleGo]
      exact List.Perm.nil
    | cons x xs =>
      simp only [shuffleGo]
      have hj : (lcgNext g).1 % (x :: xs).length < (x :: xs).length :=
        Nat.mod_lt _ (by simp)
      rw [List.getD_eq_getElem (x :: xs) x hj]
      have hlen : ((x :: xs).eraseIdx ((lcgNext g).1 % (x :: xs).length)).length ≤ fuel := by
        rw [List.length_eraseIdx]
        simp only [if_pos hj]
        simp only [List.length_cons] at h ⊢
        omega
      exact ((ih (lcgNext g).2 _ hlen).cons _).trans
        (getElem_cons_eraseIdx_perm (x :: xs) _ hj)

/-- The seeded shuffle permutes its input. -/
theorem seededShuffle_perm {α : Type} (seed : ℕ) (l : List α) :
    List.Perm (seededShuffle seed l) l :=
  shuffleGo_perm l.length seed l (le_refl _)

/-- Claim C7: the shuffled pill sequence of `generate_image` does not
depend on the ambient process-wide generator state — `random.seed(420)`
overwrites it — so two runs with identical inputs produce the identical
permutation; and the result is a permutation of the concatenated
sequence: verbatims first, then tags, then artists, each tagged with its
category's fill color. -/
theorem shuffle_determinism (g1 g2 : ℕ) (verbatims tags artists : List PyStr)
    (c : Color) :
    mixAllPills g1 verbatims tags artists c =
        mixAllPills g2 verbatims tags artists c ∧
      List.Perm (mixAllPills g1 verbatims tags artists c)
        (verbatims.map (fun t => ⟨PillCat.verbatim, t, GREY⟩) ++
          tags.map (fun t => ⟨PillCat.tag, t, WHITE⟩) ++
          artists.map (fun t => ⟨PillCat.artist, t, c⟩)) :=
  ⟨rfl, seededShuffle_perm shuffleSeed (buildAllPills verbatims tags artists c)⟩

end Freqgen
